import Mathlib

/-!
Verification of the K4 embeddable key-value storage engine.

The repository ships a thin C binding (`src/c/k4.c`, `src/c/k4.h`) over the
engine's exported operations (`Put`, `Get`, `Delete`, `BeginTransaction`,
`AddOperation`, `CommitTransaction`, `RollbackTransaction`, `RecoverFromWAL`).
The engine itself (memtable, WAL, segment store, compactor, transaction
manager) is not part of the C sources, so its state machine is modelled here
from the specification; the C-level wrappers (`k4_put`, `k4_get`, ...) are
embedded directly from `src/c/k4.c`.

Keys and values are strings, time is an integer clock, TTLs are optional
integer durations turned into absolute expiry stamps at write time.
-/

namespace K4Spec

/-- Modelled from the spec: the Entry record of the engine (missing from the
C sources): key, value (meaningless for tombstones), tombstone flag, optional
absolute expiry timestamp, and a monotonically increasing sequence number. -/
structure Entry where
  key : String
  value : String
  tombstone : Bool
  expiresAt : Option Int
  seqNo : Nat
deriving DecidableEq, Repr

/-- Modelled from the spec: an entry whose `expiresAt` lies strictly in the
past is logically expired ("not retrievable once the current time exceeds
the expiry"); an absent expiry never expires. -/
def expiredAt (now : Int) (e : Entry) : Bool :=
  match e.expiresAt with
  | none => false
  | some t => t < now

/-- Modelled from the spec: an entry is dead when it is a tombstone or has
expired; dead entries are treated as absent by every read path. -/
def deadAt (now : Int) (e : Entry) : Bool :=
  e.tombstone || expiredAt now e

/-- Modelled from the spec: the engine state (missing from the C sources):
immutable segment entries (oldest first), the mutable memtable (oldest
first), the WAL records not yet covered by a flushed segment, and the next
sequence number to assign. -/
structure K4 where
  segments : List Entry
  memtable : List Entry
  wal : List Entry
  nextSeq : Nat
deriving DecidableEq, Repr

/-- The freshly opened empty database. -/
def emptyDB : K4 := ⟨[], [], [], 0⟩

/-- All logical entries of the database, oldest first: segment contents
followed by the memtable. -/
def allEntries (db : K4) : List Entry := db.segments ++ db.memtable

/-- Choice between a candidate entry and the best entry found so far: the
one with the strictly larger sequence number wins. -/
def better (e : Entry) : Option Entry → Option Entry
  | none => some e
  | some a => if a.seqNo < e.seqNo then some e else some a

/-- One step of the highest-sequence search: the candidate entry `e`
competes with the accumulator when its key matches. -/
def latestStep (k : String) (e : Entry) (acc : Option Entry) : Option Entry :=
  if e.key = k then better e acc else acc

/-- Modelled from the spec: the authoritative entry for a key is the one
with the highest sequence number among all entries for that key. -/
def latestIn (l : List Entry) (k : String) : Option Entry :=
  l.foldr (latestStep k) none

/-- A TTL duration becomes an absolute expiry stamp at write time; an absent
TTL yields no expiry. -/
def mkExpiry (now : Int) (ttl : Option Int) : Option Int :=
  ttl.map (fun t => now + t)

/-- The entry appended by a put at the current sequence number. -/
def putEntry (db : K4) (k v : String) (ttl : Option Int) (now : Int) : Entry :=
  ⟨k, v, false, mkExpiry now ttl, db.nextSeq⟩

/-- The tombstone entry appended by a delete at the current sequence number. -/
def delEntry (db : K4) (k : String) : Entry :=
  ⟨k, "", true, none, db.nextSeq⟩

/-- Modelled from the spec: the engine's exported `Put` — WAL append then
memtable insert, assigning the next sequence number. -/
def Put (db : K4) (k v : String) (ttl : Option Int) (now : Int) : K4 :=
  ⟨db.segments, db.memtable ++ [putEntry db k v ttl now],
    db.wal ++ [putEntry db k v ttl now], db.nextSeq + 1⟩

/-- Modelled from the spec: the engine's exported `Delete` — inserts a
tombstone through the same WAL-then-memtable path. -/
def Delete (db : K4) (k : String) : K4 :=
  ⟨db.segments, db.memtable ++ [delEntry db k],
    db.wal ++ [delEntry db k], db.nextSeq + 1⟩

/-- Modelled from the spec: the engine's exported `Get` — the entry with the
highest sequence number for the key is authoritative; tombstoned or expired
authoritative entries read as not-found. -/
def readLatest (now : Int) : Option Entry → Option String
  | none => none
  | some e => if e.tombstone then none else if expiredAt now e then none else some e.value

def Get (db : K4) (k : String) (now : Int) : Option String :=
  readLatest now (latestIn (allEntries db) k)

/-- Modelled from the spec: flush drains the memtable into a new immutable
segment and truncates the WAL, whose records are now durably represented on
disk. -/
def flushDB (db : K4) : K4 :=
  ⟨db.segments ++ db.memtable, [], [], db.nextSeq⟩

/-- Modelled from the spec: the engine's exported `RecoverFromWAL` — replays
all WAL records in sequence order into a fresh memtable, after segment files
already on disk are indexed. -/
def RecoverFromWAL (db : K4) : K4 :=
  ⟨db.segments, db.wal, db.wal, db.nextSeq⟩

/-- Closing (or crashing) loses the in-memory memtable; segments and the WAL
are the durable state. -/
def crashClose (db : K4) : K4 :=
  ⟨db.segments, [], db.wal, db.nextSeq⟩

/-- Reopening the database runs WAL recovery over the durable state. -/
def reopenDB (db : K4) : K4 := RecoverFromWAL (crashClose db)

/-- Modelled from the spec: one buffered transaction operation, a put or a
delete. -/
inductive TxOp where
  | tput (k v : String) (ttl : Option Int)
  | tdel (k : String)
deriving DecidableEq, Repr

/-- Modelled from the spec: a transaction is an ordered list of buffered
operations with no durable existence until committed. -/
structure Transaction where
  ops : List TxOp
deriving DecidableEq, Repr

/-- Modelled from the spec: the engine's exported `BeginTransaction` — a
fresh handle with an empty operation buffer. -/
def BeginTransaction : Transaction := ⟨[]⟩

/-- Modelled from the spec: the engine's exported `AddOperation` — buffers
one operation without touching memtable or WAL. -/
def AddOperation (t : Transaction) (op : TxOp) : Transaction :=
  ⟨t.ops ++ [op]⟩

/-- Applying one buffered operation to the engine state during commit. -/
def applyTxOp (now : Int) (db : K4) (op : TxOp) : K4 :=
  match op with
  | .tput k v ttl => Put db k v ttl now
  | .tdel k => Delete db k

/-- Modelled from the spec: the engine's exported `CommitTransaction` — on
success (WAL append and lock acquisition succeed, `ok = true`) all buffered
operations are applied in order as one contiguous block of sequence numbers;
on failure the entire buffered set is discarded and the state is untouched. -/
def CommitTransaction (ok : Bool) (t : Transaction) (db : K4) (now : Int) : K4 :=
  if ok then t.ops.foldl (applyTxOp now) db else db

/-- Modelled from the spec: the engine's exported `RollbackTransaction` —
discards the buffered operations with no WAL or memtable effect. -/
def RollbackTransaction (_t : Transaction) (db : K4) : K4 := db

/-- One externally observable engine-level operation, used to describe the
reachable states of the engine. -/
inductive DBOp where
  | opPut (k v : String) (ttl : Option Int) (now : Int)
  | opDel (k : String)
  | opFlush
  | opCommit (ok : Bool) (ops : List TxOp) (now : Int)
  | opReopen
deriving DecidableEq, Repr

/-- Effect of one engine-level operation on the state. -/
def applyOp (db : K4) : DBOp → K4
  | .opPut k v ttl now => Put db k v ttl now
  | .opDel k => Delete db k
  | .opFlush => flushDB db
  | .opCommit ok ops now => CommitTransaction ok ⟨ops⟩ db now
  | .opReopen => reopenDB db

/-- Effect of a sequence of engine-level operations, first operation first. -/
def applyOps (db : K4) (l : List DBOp) : K4 := l.foldl applyOp db

/-- States reachable from the freshly opened empty database. -/
inductive Reachable : K4 → Prop where
  | empty : Reachable emptyDB
  | step : ∀ {db}, Reachable db → ∀ op, Reachable (applyOp db op)

/-- Whether a buffered transaction operation addresses the key `k`. -/
def txTouches (k : String) : TxOp → Bool
  | .tput k' _ _ => k' == k
  | .tdel k' => k' == k

/-- Whether an engine-level operation writes the key `k`. -/
def touches (k : String) : DBOp → Bool
  | .opPut k' _ _ _ => k' == k
  | .opDel k' => k' == k
  | .opFlush => false
  | .opCommit _ ops _ => ops.any (txTouches k)
  | .opReopen => false

/-- Lexicographic comparison of character sequences by code point, the
order in which the engine keeps keys sorted. -/
def lexLe : List Char → List Char → Bool
  | [], _ => true
  | _ :: _, [] => false
  | a :: as, b :: bs =>
    if a.toNat < b.toNat then true
    else if b.toNat < a.toNat then false
    else lexLe as bs

/-- Key order: byte-wise lexicographic comparison of the two strings. -/
def keyLe (a b : String) : Bool := lexLe a.data b.data

/-- Strict key order. -/
def keyLt (a b : String) : Bool := keyLe a b && !(a == b)

/-- The distinct keys present anywhere in the database, in ascending order. -/
def sortedKeys (db : K4) : List String :=
  (((allEntries db).map Entry.key).dedup).insertionSort (fun a b => keyLe a b = true)

/-- Modelled from the spec: the iterator sequence — the ordered,
deduplicated sequence of live key/value pairs over a snapshot of the
database. -/
def iterSeq (db : K4) (now : Int) : List (String × String) :=
  (sortedKeys db).filterMap (fun k => (Get db k now).map (fun v => (k, v)))

/-- Modelled from the spec: `range(startKey, endKey)` (inclusive on both
ends) — merges memtable and segments key-wise, deduplicates by highest
sequence number, filters tombstones and expired entries, and returns the
results in ascending key order. Named after the `range_` symbol of the C
example program. -/
def range_ (db : K4) (lo hi : String) (now : Int) : List (String × String) :=
  (sortedKeys db).filterMap (fun k =>
    if keyLe lo k && keyLe k hi then (Get db k now).map (fun v => (k, v)) else none)

/-- Modelled from the spec: compaction's k-way merge over a segment set —
ordered by key, keeping only the highest-sequence entry per key, and
dropping dead entries (tombstones, expired) that are older than the grace
period (abstracted by the predicate `oldEnough`). -/
def keepEntry (now : Int) (oldEnough : Entry → Bool) : Option Entry → Option Entry
  | none => none
  | some e => if deadAt now e && oldEnough e then none else some e

def compactSegments (now : Int) (oldEnough : Entry → Bool) (segs : List Entry) :
    List Entry :=
  ((segs.map Entry.key).dedup).filterMap
    (fun k => keepEntry now oldEnough (latestIn segs k))

/-- Modelled from the spec: a compaction run replaces the segment set by its
compacted merge; memtable and WAL are untouched. -/
def compactDB (now : Int) (oldEnough : Entry → Bool) (db : K4) : K4 :=
  ⟨compactSegments now oldEnough db.segments, db.memtable, db.wal, db.nextSeq⟩

/-- The TTL argument actually handed to the engine by the C wrapper: `-1` is
the only sentinel and maps to an absent TTL (embedded from `k4_put` in
`src/c/k4.c`). -/
def ttlArg (ttl : Int) : Option Int :=
  if ttl = -1 then none else some ttl

/-- Embedded from `src/c/k4.c`: `k4_put` forwards to the engine's `Put`,
translating the TTL sentinel `-1` into an absent TTL and passing every other
TTL value through unchanged. -/
def k4_put (db : K4) (k v : String) (ttl : Int) (now : Int) : K4 :=
  if ttl = -1 then Put db k v none now else Put db k v (some ttl) now

/-- Embedded from `src/c/k4.c`: `k4_get` calls the engine's `Get`; a NULL
result is passed through as NULL, a non-NULL result is returned as a fresh
caller-owned copy with the same contents. -/
def k4_get (db : K4) (k : String) (now : Int) : Option String :=
  match Get db k now with
  | none => none
  | some v => some v

/-- Embedded from `src/c/k4.c`: `k4_delete` forwards to the engine's
`Delete`. -/
def k4_delete (db : K4) (k : String) : K4 := Delete db k

/-- The WAL mirrors the memtable: every record not yet covered by a flushed
segment is exactly an un-flushed memtable entry. -/
def WalSync (db : K4) : Prop := db.wal = db.memtable

/-- Every stored sequence number is strictly below the next one to assign. -/
def SeqBound (db : K4) : Prop :=
  ∀ e ∈ allEntries db, e.seqNo < db.nextSeq

/-- The engine invariant: WAL/memtable synchrony, sequence numbers bounded
by the allocator, and sequence numbers strictly increasing in write order. -/
def Inv (db : K4) : Prop :=
  WalSync db ∧ SeqBound db ∧
    List.Pairwise (fun a b => a.seqNo < b.seqNo) (allEntries db)

instance (db : K4) : Decidable (WalSync db) := by
  unfold WalSync; infer_instance

instance (db : K4) : Decidable (SeqBound db) := by
  unfold SeqBound; infer_instance

instance (db : K4) : Decidable (Inv db) := by
  unfold Inv; infer_instance

end K4Spec

namespace K4Spec

/-! Order-theoretic facts about the key comparison. -/

theorem charToNat_inj {a b : Char} (h : a.toNat = b.toNat) : a = b := by
  apply Char.ext
  apply UInt32.eq_of_val_eq
  apply Fin.ext
  exact h

theorem lexLe_total (as bs : List Char) : lexLe as bs = true ∨ lexLe bs as = true := by
  induction as generalizing bs with
  | nil => left; rfl
  | cons a as ih =>
    cases bs with
    | nil => right; rfl
    | cons b bs =>
      simp only [lexLe]
      rcases Nat.lt_trichotomy a.toNat b.toNat with h | h | h
      · left; rw [if_pos h]
      · rw [if_neg (by omega), if_neg (by omega), if_neg (by omega), if_neg (by omega)]
        exact ih bs
      · right; rw [if_pos h]

theorem lexLe_trans (as bs cs : List Char) (h1 : lexLe as bs = true)
    (h2 : lexLe bs cs = true) : lexLe as cs = true := by
  induction as generalizing bs cs with
  | nil => rfl
  | cons a as ih =>
    cases bs with
    | nil =>
      simp only [lexLe] at h1
      exact Bool.noConfusion h1
    | cons b bs =>
      cases cs with
      | nil =>
        simp only [lexLe] at h2
        exact Bool.noConfusion h2
      | cons c cs =>
        simp only [lexLe] at h1 h2 ⊢
        split_ifs at h1 h2 ⊢ <;>
          first
          | rfl
          | omega
          | exact ih bs cs h1 h2

theorem lexLe_antisymm (as bs : List Char) (h1 : lexLe as bs = true)
    (h2 : lexLe bs as = true) : as = bs := by
  induction as generalizing bs with
  | nil =>
    cases bs with
    | nil => rfl
    | cons b bs =>
      simp only [lexLe] at h2
      exact Bool.noConfusion h2
  | cons a as ih =>
    cases bs with
    | nil =>
      simp only [lexLe] at h1
      exact Bool.noConfusion h1
    | cons b bs =>
      simp only [lexLe] at h1 h2
      by_cases hab : a.toNat < b.toNat
      · rw [if_neg (by omega), if_pos hab] at h2
        exact Bool.noConfusion h2
      · by_cases hba : b.toNat < a.toNat
        · rw [if_neg hab, if_pos hba] at h1
          exact Bool.noConfusion h1
        · rw [if_neg hab, if_neg hba] at h1
          rw [if_neg hba, if_neg hab] at h2
          have hc : a = b := charToNat_inj (by omega)
          rw [hc, ih bs h1 h2]

theorem keyLe_total (a b : String) : keyLe a b = true ∨ keyLe b a = true :=
  lexLe_total a.data b.data

theorem keyLe_trans (a b c : String) (h1 : keyLe a b = true)
    (h2 : keyLe b c = true) : keyLe a c = true :=
  lexLe_trans a.data b.data c.data h1 h2

theorem keyLe_antisymm (a b : String) (h1 : keyLe a b = true)
    (h2 : keyLe b a = true) : a = b := by
  have h := lexLe_antisymm a.data b.data h1 h2
  cases a
  cases b
  exact congrArg String.mk h

theorem keyLe_refl (a : String) : keyLe a a = true := by
  rcases keyLe_total a a with h | h <;> exact h

instance : IsTotal String (fun a b => keyLe a b = true) := ⟨keyLe_total⟩

instance : IsTrans String (fun a b => keyLe a b = true) := ⟨keyLe_trans⟩

theorem keyLt_iff (a b : String) :
    keyLt a b = true ↔ keyLe a b = true ∧ a ≠ b := by
  unfold keyLt
  simp [Bool.and_eq_true]

end K4Spec

namespace K4Spec

/-! Facts about the highest-sequence-number search. -/

/-- Combination of the highest-sequence search results over two list parts;
ties prefer the later part, matching the fold. -/
def combLatest : Option Entry → Option Entry → Option Entry
  | none, r => r
  | some a, none => some a
  | some a, some b => if b.seqNo < a.seqNo then some a else some b

theorem latestIn_nil (k : String) : latestIn [] k = none := rfl

theorem latestIn_cons (e : Entry) (l : List Entry) (k : String) :
    latestIn (e :: l) k = latestStep k e (latestIn l k) := rfl

theorem combLatest_none_right (x : Option Entry) : combLatest x none = x := by
  cases x <;> rfl

theorem latestStep_comb (k : String) (e : Entry) (x y : Option Entry) :
    latestStep k e (combLatest x y) = combLatest (latestStep k e x) y := by
  by_cases hk : e.key = k
  · simp only [latestStep, if_pos hk]
    cases x with
    | none =>
      cases y with
      | none => rfl
      | some b => rfl
    | some a =>
      cases y with
      | none => rw [combLatest_none_right, combLatest_none_right]
      | some b =>
        by_cases h1 : b.seqNo < a.seqNo
        · rw [show combLatest (some a) (some b) = some a by simp [combLatest, h1]]
          by_cases h2 : a.seqNo < e.seqNo
          · rw [show better e (some a) = some e by simp [better, h2]]
            simp [combLatest, show b.seqNo < e.seqNo by omega]
          · rw [show better e (some a) = some a by simp [better, h2]]
            simp [combLatest, h1]
        · rw [show combLatest (some a) (some b) = some b by simp [combLatest, h1]]
          by_cases h2 : a.seqNo < e.seqNo
          · rw [show better e (some a) = some e by simp [better, h2]]
            simp [better, combLatest]
          · rw [show better e (some a) = some a by simp [better, h2]]
            simp [better, combLatest, h1, show ¬b.seqNo < e.seqNo by omega]
  · simp only [latestStep, if_neg hk]

theorem latestIn_append (l1 l2 : List Entry) (k : String) :
    latestIn (l1 ++ l2) k = combLatest (latestIn l1 k) (latestIn l2 k) := by
  induction l1 with
  | nil => rfl
  | cons e l1 ih =>
    simp only [List.cons_append, latestIn, List.foldr_cons] at ih ⊢
    rw [ih, latestStep_comb]

theorem latestIn_mem {l : List Entry} {k : String} {e : Entry}
    (h : latestIn l k = some e) : e ∈ l ∧ e.key = k := by
  induction l with
  | nil => exact Option.noConfusion h
  | cons a l ih =>
    rw [latestIn_cons] at h
    cases hl : latestIn l k with
    | none =>
      rw [hl] at h
      simp only [latestStep, better] at h
      by_cases hk : a.key = k
      · rw [if_pos hk] at h
        injection h with he
        subst he
        exact ⟨.head _, hk⟩
      · rw [if_neg hk] at h
        exact Option.noConfusion h
    | some b =>
      rw [hl] at h
      simp only [latestStep, better] at h
      by_cases hk : a.key = k
      · rw [if_pos hk] at h
        by_cases hs : b.seqNo < a.seqNo
        · rw [if_pos hs] at h
          injection h with he
          subst he
          exact ⟨.head _, hk⟩
        · rw [if_neg hs] at h
          injection h with he
          subst he
          rcases ih hl with ⟨hm, hk2⟩
          exact ⟨.tail _ hm, hk2⟩
      · rw [if_neg hk] at h
        injection h with he
        subst he
        rcases ih hl with ⟨hm, hk2⟩
        exact ⟨.tail _ hm, hk2⟩

theorem latestIn_eq_none (l : List Entry) (k : String) :
    latestIn l k = none ↔ ∀ e ∈ l, e.key ≠ k := by
  induction l with
  | nil => simp [latestIn_nil]
  | cons a l ih =>
    rw [latestIn_cons]
    constructor
    · intro h
      cases hl : latestIn l k with
      | none =>
        rw [hl] at h
        simp only [latestStep, better] at h
        by_cases hk : a.key = k
        · rw [if_pos hk] at h
          exact Option.noConfusion h
        · intro e he
          rcases List.mem_cons.mp he with rfl | he2
          · exact hk
          · exact (ih.mp hl) e he2
      | some b =>
        rw [hl] at h
        simp only [latestStep, better] at h
        by_cases hk : a.key = k
        · rw [if_pos hk] at h
          split_ifs at h
        · rw [if_neg hk] at h
          exact Option.noConfusion h
    · intro h
      have hl : latestIn l k = none := ih.mpr (fun e he => h e (.tail _ he))
      rw [hl]
      simp only [latestStep, better]
      rw [if_neg (h a (.head _))]

theorem latestIn_isMax (l : List Entry) (k : String) :
    ∀ e, latestIn l k = some e → ∀ x ∈ l, x.key = k → x.seqNo ≤ e.seqNo := by
  induction l with
  | nil =>
    intro e h
    exact Option.noConfusion h
  | cons a l ih =>
    intro e h x hx hxk
    rw [latestIn_cons] at h
    cases hl : latestIn l k with
    | none =>
      rw [hl] at h
      simp only [latestStep, better] at h
      by_cases hk : a.key = k
      · rw [if_pos hk] at h
        injection h with he
        subst he
        rcases List.mem_cons.mp hx with rfl | hx2
        · exact Nat.le_refl _
        · exact absurd hxk ((latestIn_eq_none l k).mp hl x hx2)
      · rw [if_neg hk] at h
        exact Option.noConfusion h
    | some b =>
      rw [hl] at h
      simp only [latestStep, better] at h
      have hbmax := ih b hl
      by_cases hk : a.key = k
      · rw [if_pos hk] at h
        by_cases hs : b.seqNo < a.seqNo
        · rw [if_pos hs] at h
          injection h with he
          subst he
          rcases List.mem_cons.mp hx with rfl | hx2
          · exact Nat.le_refl _
          · exact Nat.le_of_lt (Nat.lt_of_le_of_lt (hbmax x hx2 hxk) hs)
        · rw [if_neg hs] at h
          injection h with he
          subst he
          rcases List.mem_cons.mp hx with rfl | hx2
          · omega
          · exact hbmax x hx2 hxk
      · rw [if_neg hk] at h
        injection h with he
        subst he
        rcases List.mem_cons.mp hx with rfl | hx2
        · exact absurd hxk hk
        · exact hbmax x hx2 hxk

theorem latestIn_append_no_key {l1 l2 : List Entry} {k : String}
    (h : ∀ e ∈ l2, e.key ≠ k) : latestIn (l1 ++ l2) k = latestIn l1 k := by
  rw [latestIn_append, (latestIn_eq_none l2 k).mpr h, combLatest_none_right]

theorem latestIn_singleton (e : Entry) (k : String) (hk : e.key = k) :
    latestIn [e] k = some e := by
  rw [latestIn_cons, latestIn_nil]
  simp only [latestStep, better]
  rw [if_pos hk]

theorem latestIn_snoc_self {l : List Entry} {k : String} {e : Entry}
    (hk : e.key = k) (hmax : ∀ x ∈ l, x.seqNo < e.seqNo) :
    latestIn (l ++ [e]) k = some e := by
  rw [latestIn_append, latestIn_singleton e k hk]
  cases hl : latestIn l k with
  | none => rfl
  | some a =>
    rcases latestIn_mem hl with ⟨hm, _⟩
    simp only [combLatest]
    rw [if_neg (by have := hmax a hm; omega)]

theorem Get_eq_of_entries {db1 db2 : K4} (h : allEntries db1 = allEntries db2)
    (k : String) (now : Int) : Get db1 k now = Get db2 k now := by
  unfold Get
  rw [h]

theorem allEntries_put (db : K4) (k v : String) (ttl : Option Int) (now : Int) :
    allEntries (Put db k v ttl now) = allEntries db ++ [putEntry db k v ttl now] := by
  simp [allEntries, Put, List.append_assoc]

theorem allEntries_delete (db : K4) (k : String) :
    allEntries (Delete db k) = allEntries db ++ [delEntry db k] := by
  simp [allEntries, Delete, List.append_assoc]

theorem allEntries_flush (db : K4) : allEntries (flushDB db) = allEntries db := by
  simp [allEntries, flushDB]

theorem allEntries_reopen {db : K4} (h : WalSync db) :
    allEntries (reopenDB db) = allEntries db := by
  simp only [allEntries, reopenDB, RecoverFromWAL, crashClose]
  rw [h]

end K4Spec

namespace K4Spec

/-! Preservation of the engine invariant. -/

theorem inv_empty : Inv emptyDB := by decide

theorem inv_put {db : K4} (h : Inv db) (k v : String) (ttl : Option Int)
    (now : Int) : Inv (Put db k v ttl now) := by
  obtain ⟨hw, hb, hp⟩ := h
  refine ⟨?_, ?_, ?_⟩
  · unfold WalSync at hw ⊢
    simp [Put, hw]
  · intro e he
    rw [allEntries_put] at he
    rcases List.mem_append.mp he with he | he
    · have := hb e he
      simp only [Put]
      omega
    · simp only [List.mem_singleton] at he
      subst he
      simp [Put, putEntry]
  · rw [allEntries_put]
    apply List.pairwise_append.mpr
    refine ⟨hp, List.pairwise_singleton _ _, ?_⟩
    intro a ha b hb2
    simp only [List.mem_singleton] at hb2
    subst hb2
    have := hb a ha
    simpa [putEntry] using this

theorem inv_delete {db : K4} (h : Inv db) (k : String) : Inv (Delete db k) := by
  obtain ⟨hw, hb, hp⟩ := h
  refine ⟨?_, ?_, ?_⟩
  · unfold WalSync at hw ⊢
    simp [Delete, hw]
  · intro e he
    rw [allEntries_delete] at he
    rcases List.mem_append.mp he with he | he
    · have := hb e he
      simp only [Delete]
      omega
    · simp only [List.mem_singleton] at he
      subst he
      simp [Delete, delEntry]
  · rw [allEntries_delete]
    apply List.pairwise_append.mpr
    refine ⟨hp, List.pairwise_singleton _ _, ?_⟩
    intro a ha b hb2
    simp only [List.mem_singleton] at hb2
    subst hb2
    have := hb a ha
    simpa [delEntry] using this

theorem inv_flush {db : K4} (h : Inv db) : Inv (flushDB db) := by
  obtain ⟨hw, hb, hp⟩ := h
  refine ⟨rfl, ?_, ?_⟩
  · intro e he
    rw [allEntries_flush] at he
    exact hb e he
  · rw [allEntries_flush]
    exact hp

theorem inv_reopen {db : K4} (h : Inv db) : Inv (reopenDB db) := by
  obtain ⟨hw, hb, hp⟩ := h
  refine ⟨rfl, ?_, ?_⟩
  · intro e he
    rw [allEntries_reopen hw] at he
    exact hb e he
  · rw [allEntries_reopen hw]
    exact hp

theorem inv_applyTxOps {db : K4} (h : Inv db) (now : Int) (l : List TxOp) :
    Inv (l.foldl (applyTxOp now) db) := by
  induction l generalizing db with
  | nil => exact h
  | cons t l ih =>
    rw [List.foldl_cons]
    apply ih
    cases t with
    | tput k v ttl => exact inv_put h k v ttl now
    | tdel k => exact inv_delete h k

theorem inv_applyOp {db : K4} (h : Inv db) (op : DBOp) : Inv (applyOp db op) := by
  cases op with
  | opPut k v ttl now => exact inv_put h k v ttl now
  | opDel k => exact inv_delete h k
  | opFlush => exact inv_flush h
  | opCommit ok ops now =>
    simp only [applyOp, CommitTransaction]
    by_cases hok : ok = true
    · rw [if_pos hok]
      exact inv_applyTxOps h now ops
    · rw [if_neg hok]
      exact h
  | opReopen => exact inv_reopen h

theorem inv_applyOps {db : K4} (h : Inv db) (ops : List DBOp) :
    Inv (applyOps db ops) := by
  induction ops generalizing db with
  | nil => exact h
  | cons op ops ih =>
    simp only [applyOps, List.foldl_cons] at ih ⊢
    exact ih (inv_applyOp h op)

theorem reachable_inv {db : K4} (h : Reachable db) : Inv db := by
  induction h with
  | empty => exact inv_empty
  | step _ op ih => exact inv_applyOp ih op

/-! Operations on other keys do not disturb the authoritative entry. -/

theorem latest_untouched_put {db : K4} {k : String} (k' v : String)
    (ttl : Option Int) (now : Int) (hne : k' ≠ k) :
    latestIn (allEntries (Put db k' v ttl now)) k = latestIn (allEntries db) k := by
  rw [allEntries_put]
  apply latestIn_append_no_key
  intro e he
  simp only [List.mem_singleton] at he
  subst he
  simpa [putEntry] using hne

theorem latest_untouched_delete {db : K4} {k : String} (k' : String)
    (hne : k' ≠ k) :
    latestIn (allEntries (Delete db k')) k = latestIn (allEntries db) k := by
  rw [allEntries_delete]
  apply latestIn_append_no_key
  intro e he
  simp only [List.mem_singleton] at he
  subst he
  simpa [delEntry] using hne

theorem latest_untouched_txops {db : K4} {k : String} (l : List TxOp) (now : Int)
    (h : ∀ t ∈ l, txTouches k t = false) :
    latestIn (allEntries (l.foldl (applyTxOp now) db)) k
      = latestIn (allEntries db) k := by
  induction l generalizing db with
  | nil => rfl
  | cons t l ih =>
    rw [List.foldl_cons, ih (fun x hx => h x (.tail _ hx))]
    cases t with
    | tput k' v ttl =>
      have ht := h _ (List.mem_cons_self _ _)
      simp only [txTouches] at ht
      exact latest_untouched_put k' v ttl now (by simpa using ht)
    | tdel k' =>
      have ht := h _ (List.mem_cons_self _ _)
      simp only [txTouches] at ht
      exact latest_untouched_delete k' (by simpa using ht)

theorem latest_untouched_applyOp {db : K4} {k : String} {op : DBOp}
    (hw : WalSync db) (ht : touches k op = false) :
    latestIn (allEntries (applyOp db op)) k = latestIn (allEntries db) k := by
  cases op with
  | opPut k' v ttl now =>
    simp only [touches] at ht
    exact latest_untouched_put k' v ttl now (by simpa using ht)
  | opDel k' =>
    simp only [touches] at ht
    exact latest_untouched_delete k' (by simpa using ht)
  | opFlush =>
    simp only [applyOp]
    rw [allEntries_flush]
  | opCommit ok ops now =>
    simp only [applyOp, CommitTransaction]
    by_cases hok : ok = true
    · rw [if_pos hok]
      apply latest_untouched_txops
      intro t htm
      simp only [touches] at ht
      exact Bool.eq_false_iff.mpr (List.any_eq_false.mp (by simpa using ht) t htm)
    · rw [if_neg hok]
  | opReopen =>
    simp only [applyOp]
    rw [allEntries_reopen hw]

theorem latest_untouched_applyOps {db : K4} {k : String} {ops : List DBOp}
    (hi : Inv db) (h : ∀ op ∈ ops, touches k op = false) :
    latestIn (allEntries (applyOps db ops)) k = latestIn (allEntries db) k := by
  induction ops generalizing db with
  | nil => rfl
  | cons op ops ih =>
    simp only [applyOps, List.foldl_cons] at ih ⊢
    rw [ih (inv_applyOp hi op) (fun x hx => h x (.tail _ hx)),
      latest_untouched_applyOp hi.1 (h op (List.mem_cons_self _ _))]

/-! The authoritative entry right after a write. -/

theorem latestIn_after_put {db : K4} (k v : String) (ttl : Option Int)
    (now : Int) (hb : SeqBound db) :
    latestIn (allEntries (Put db k v ttl now)) k
      = some (putEntry db k v ttl now) := by
  rw [allEntries_put]
  exact latestIn_snoc_self rfl (fun x hx => hb x hx)

theorem latestIn_after_delete {db : K4} (k : String) (hb : SeqBound db) :
    latestIn (allEntries (Delete db k)) k = some (delEntry db k) := by
  rw [allEntries_delete]
  exact latestIn_snoc_self rfl (fun x hx => hb x hx)

end K4Spec

namespace K4Spec

/-! Facts about the sorted key list, range queries and iterators. -/

theorem mem_sortedKeys {db : K4} {k : String} :
    k ∈ sortedKeys db ↔ ∃ e ∈ allEntries db, e.key = k := by
  unfold sortedKeys
  rw [List.mem_insertionSort, List.mem_dedup, List.mem_map]

theorem sortedKeys_sorted (db : K4) :
    List.Pairwise (fun a b => keyLe a b = true) (sortedKeys db) :=
  List.sorted_insertionSort _ _

theorem sortedKeys_nodup (db : K4) : (sortedKeys db).Nodup :=
  (List.perm_insertionSort _ _).symm.nodup (List.nodup_dedup _)

theorem sortedKeys_pairwise_lt (db : K4) :
    List.Pairwise (fun a b => keyLt a b = true) (sortedKeys db) := by
  have h1 := sortedKeys_sorted db
  have h2 : List.Pairwise (fun a b : String => a ≠ b) (sortedKeys db) :=
    sortedKeys_nodup db
  exact (h1.and h2).imp (fun h => (keyLt_iff _ _).mpr h)

theorem Get_some_key_present {db : K4} {k v : String} {now : Int}
    (h : Get db k now = some v) : k ∈ sortedKeys db := by
  rw [mem_sortedKeys]
  unfold Get at h
  cases hl : latestIn (allEntries db) k with
  | none =>
    rw [hl] at h
    exact Option.noConfusion h
  | some e =>
    rcases latestIn_mem hl with ⟨hm, hk⟩
    exact ⟨e, hm, hk⟩

theorem mem_range_iff {db : K4} {lo hi k v : String} {now : Int} :
    (k, v) ∈ range_ db lo hi now ↔
      keyLe lo k = true ∧ keyLe k hi = true ∧ Get db k now = some v := by
  unfold range_
  rw [List.mem_filterMap]
  constructor
  · rintro ⟨k', hk', hsome⟩
    by_cases hb : keyLe lo k' && keyLe k' hi
    · rw [if_pos hb] at hsome
      rcases Option.map_eq_some'.mp hsome with ⟨v', hv', heq⟩
      injection heq with heq1 heq2
      subst heq1
      subst heq2
      simp only [Bool.and_eq_true] at hb
      exact ⟨hb.1, hb.2, hv'⟩
    · rw [if_neg hb] at hsome
      exact Option.noConfusion hsome
  · rintro ⟨h1, h2, h3⟩
    refine ⟨k, Get_some_key_present h3, ?_⟩
    rw [if_pos (by simp [h1, h2]), h3, Option.map_some']

theorem mem_iterSeq_iff {db : K4} {k v : String} {now : Int} :
    (k, v) ∈ iterSeq db now ↔ Get db k now = some v := by
  unfold iterSeq
  rw [List.mem_filterMap]
  constructor
  · rintro ⟨k', hk', hsome⟩
    rcases Option.map_eq_some'.mp hsome with ⟨v', hv', heq⟩
    injection heq with heq1 heq2
    subst heq1
    subst heq2
    exact hv'
  · intro h
    refine ⟨k, Get_some_key_present h, ?_⟩
    rw [h, Option.map_some']

theorem range_pairwise (db : K4) (lo hi : String) (now : Int) :
    List.Pairwise (fun p q : String × String => keyLt p.1 q.1 = true)
      (range_ db lo hi now) := by
  unfold range_
  apply List.Pairwise.filterMap _ _ (sortedKeys_pairwise_lt db)
  intro a a' r b hb b' hb'
  have h1 : b.1 = a := by
    by_cases hc : keyLe lo a && keyLe a hi
    · rw [Option.mem_def, if_pos hc] at hb
      rcases Option.map_eq_some'.mp hb with ⟨v', _, heq⟩
      rw [← heq]
    · rw [Option.mem_def, if_neg hc] at hb
      exact Option.noConfusion hb
  have h2 : b'.1 = a' := by
    by_cases hc : keyLe lo a' && keyLe a' hi
    · rw [Option.mem_def, if_pos hc] at hb'
      rcases Option.map_eq_some'.mp hb' with ⟨v', _, heq⟩
      rw [← heq]
    · rw [Option.mem_def, if_neg hc] at hb'
      exact Option.noConfusion hb'
  rw [h1, h2]
  exact r

end K4Spec

namespace K4Spec

/- Sanity examples (concrete evaluation of the model). -/

example : Get (Put emptyDB "key1" "v1" none 0) "key1" 5 = some "v1" := by decide

example : Get (Delete (Put emptyDB "key1" "v1" none 0) "key1") "key1" 5 = none := by decide

example : Get (Put emptyDB "key1" "v1" (some 3) 0) "key1" 4 = none := by decide

example :
    range_ (Put (Put (Put (Put emptyDB "key1" "v1" none 0) "key2" "v2" none 0)
        "key3" "v3" none 0) "key4" "v4" none 0) "key1" "key3" 0 =
      [("key1", "v1"), ("key2", "v2"), ("key3", "v3")] := by decide

example : Inv (Put emptyDB "key1" "v1" none 0) := by decide

example :
    Get (reopenDB (flushDB (Put emptyDB "key1" "v1" none 0))) "key1" 3 =
      some "v1" := by decide

end K4Spec

namespace K4Spec

/-! Reading through the authoritative entry. -/

theorem Get_of_latest_none {db : K4} {k : String} {now : Int}
    (h : latestIn (allEntries db) k = none) : Get db k now = none := by
  unfold Get
  rw [h]
  rfl

theorem Get_of_latest_live {db : K4} {k : String} {now : Int} {e : Entry}
    (h : latestIn (allEntries db) k = some e) (ht : e.tombstone = false)
    (hx : expiredAt now e = false) : Get db k now = some e.value := by
  unfold Get
  rw [h]
  simp only [readLatest]
  rw [if_neg (by simp [ht]), if_neg (by simp [hx])]

theorem Get_of_latest_dead {db : K4} {k : String} {now : Int} {e : Entry}
    (h : latestIn (allEntries db) k = some e) (hd : deadAt now e = true) :
    Get db k now = none := by
  unfold Get
  rw [h]
  simp only [readLatest]
  by_cases ht : e.tombstone = true
  · rw [if_pos ht]
  · have hx : expiredAt now e = true := by
      unfold deadAt at hd
      simp only [Bool.or_eq_true] at hd
      exact hd.resolve_left ht
    rw [if_neg ht, if_pos hx]

theorem seqBound_put {db : K4} (hb : SeqBound db) (k v : String)
    (ttl : Option Int) (now : Int) : SeqBound (Put db k v ttl now) := by
  intro e he
  rw [allEntries_put] at he
  rcases List.mem_append.mp he with he | he
  · have := hb e he
    simp only [Put]
    omega
  · simp only [List.mem_singleton] at he
    subst he
    simp [Put, putEntry]

theorem seqBound_delete {db : K4} (hb : SeqBound db) (k : String) :
    SeqBound (Delete db k) := by
  intro e he
  rw [allEntries_delete] at he
  rcases List.mem_append.mp he with he | he
  · have := hb e he
    simp only [Delete]
    omega
  · simp only [List.mem_singleton] at he
    subst he
    simp [Delete, delEntry]

end K4Spec

namespace K4Spec

/-! Claim theorems. -/

/-- C10: `k4_put` with ttl = -1 performs a put with an absent TTL (whose
entry carries no expiry and so never expires), while any other ttl is
forwarded to the engine unchanged; -1 is the only sentinel, so the engine
never observes a ttl argument of -1. -/
theorem k4_put_ttl_dispatch (db : K4) (k v : String) (ttl now : Int) :
    k4_put db k v (-1) now = Put db k v none now ∧
    (ttl ≠ -1 → k4_put db k v ttl now = Put db k v (some ttl) now) ∧
    k4_put db k v ttl now = Put db k v (ttlArg ttl) now ∧
    (∀ u : Int, ttlArg u ≠ some (-1)) ∧
    mkExpiry now none = none := by
  refine ⟨?_, ?_, ?_, ?_, rfl⟩
  · simp [k4_put]
  · intro h
    rw [k4_put, if_neg h]
  · unfold k4_put ttlArg
    by_cases h : ttl = -1
    · rw [if_pos h, if_pos h]
    · rw [if_neg h, if_neg h]
  · intro u h
    unfold ttlArg at h
    by_cases hu : u = -1
    · rw [if_pos hu] at h
      exact Option.noConfusion h
    · rw [if_neg hu] at h
      injection h with h2
      exact hu h2

/-- Witness for C10 at a concrete non-sentinel TTL. -/
theorem k4_put_ttl_dispatch_witness :
    k4_put emptyDB "a" "x" 7 0 = Put emptyDB "a" "x" (some 7) 0 :=
  (k4_put_ttl_dispatch emptyDB "a" "x" 7 0).2.1 (by decide)

/-- C6: `k4_get` returns NULL exactly when the key is absent, deleted
(tombstoned), or expired — an absent result, not a fault — and when the key
is present it returns precisely the stored value of the authoritative
entry. -/
theorem k4_get_notfound_iff (db : K4) (k : String) (now : Int) :
    (k4_get db k now = none ↔
      latestIn (allEntries db) k = none ∨
        ∃ e, latestIn (allEntries db) k = some e ∧
          (e.tombstone = true ∨ expiredAt now e = true)) ∧
    (∀ v, k4_get db k now = some v ↔
      ∃ e, latestIn (allEntries db) k = some e ∧ e.tombstone = false ∧
        expiredAt now e = false ∧ e.value = v) := by
  have hwrap : k4_get db k now = Get db k now := by
    unfold k4_get
    cases Get db k now <;> rfl
  constructor
  · rw [hwrap]
    cases hl : latestIn (allEntries db) k with
    | none => simp [Get_of_latest_none hl]
    | some e =>
      constructor
      · intro h
        refine Or.inr ⟨e, rfl, ?_⟩
        by_cases ht : e.tombstone = true
        · exact Or.inl ht
        · by_cases hx : expiredAt now e = true
          · exact Or.inr hx
          · rw [Get_of_latest_live hl (by simpa using ht) (by simpa using hx)] at h
            exact Option.noConfusion h
      · rintro (h | ⟨e', he', hd⟩)
        · exact Option.noConfusion h
        · injection he' with he2
          subst he2
          apply Get_of_latest_dead hl
          unfold deadAt
          rcases hd with hd | hd <;> simp [hd]
  · intro v
    rw [hwrap]
    cases hl : latestIn (allEntries db) k with
    | none =>
      rw [Get_of_latest_none hl]
      simp
    | some e =>
      constructor
      · intro h
        by_cases ht : e.tombstone = true
        · rw [Get_of_latest_dead hl (by simp [deadAt, ht])] at h
          exact Option.noConfusion h
        · by_cases hx : expiredAt now e = true
          · rw [Get_of_latest_dead hl (by simp [deadAt, hx])] at h
            exact Option.noConfusion h
          · rw [Get_of_latest_live hl (by simpa using ht) (by simpa using hx)] at h
            injection h with hv
            exact ⟨e, rfl, by simpa using ht, by simpa using hx, hv⟩
      · rintro ⟨e', he', ht, hx, hv⟩
        injection he' with he2
        subst he2
        rw [Get_of_latest_live hl ht hx, hv]

/-- C8: `AddOperation` only appends to the transaction's buffered list, and
a rollback discards the buffer leaving every get and range result identical
to the state before the transaction began. -/
theorem txn_rollback_frame (db : K4) (ops : List TxOp) (k lo hi : String)
    (now : Int) :
    (List.foldl AddOperation BeginTransaction ops).ops = ops ∧
    Get (RollbackTransaction (List.foldl AddOperation BeginTransaction ops) db)
        k now = Get db k now ∧
    range_ (RollbackTransaction (List.foldl AddOperation BeginTransaction ops) db)
        lo hi now = range_ db lo hi now := by
  refine ⟨?_, rfl, rfl⟩
  have haux : ∀ (l : List TxOp) (t : Transaction),
      (List.foldl AddOperation t l).ops = t.ops ++ l := by
    intro l
    induction l with
    | nil => intro t; simp
    | cons x l ih =>
      intro t
      rw [List.foldl_cons, ih]
      simp [AddOperation]
  rw [haux]
  rfl

/-- C3: recovery round-trip — after a flush, a close and a reopen (which
replays the WAL over the indexed segments), every key reads exactly the
value it read before the close; with an unflushed memtable, WAL replay
alone also restores every read. -/
theorem recovery_roundtrip (db : K4) (hw : WalSync db) (k : String) (now : Int) :
    Get (reopenDB (flushDB db)) k now = Get db k now ∧
    Get (reopenDB db) k now = Get db k now := by
  constructor
  · apply Get_eq_of_entries
    rw [allEntries_reopen (show WalSync (flushDB db) from rfl), allEntries_flush]
  · apply Get_eq_of_entries
    exact allEntries_reopen hw

/-- Witness for C3: two distinct keys written, flushed, closed and
reopened read back their pre-close values. -/
theorem recovery_roundtrip_witness :
    WalSync (Put (Put emptyDB "k1" "v1" none 0) "k2" "v2" none 0) ∧
    (Get (reopenDB (flushDB (Put (Put emptyDB "k1" "v1" none 0) "k2" "v2" none 0)))
        "k1" 3
      = Get (Put (Put emptyDB "k1" "v1" none 0) "k2" "v2" none 0) "k1" 3 ∧
    Get (reopenDB (Put (Put emptyDB "k1" "v1" none 0) "k2" "v2" none 0)) "k1" 3
      = Get (Put (Put emptyDB "k1" "v1" none 0) "k2" "v2" none 0) "k1" 3) :=
  ⟨by decide,
    recovery_roundtrip (Put (Put emptyDB "k1" "v1" none 0) "k2" "v2" none 0)
      (by decide) "k1" 3⟩

/-- C5: range returns exactly the live pairs whose keys lie in the closed
interval [lo, hi], in strictly ascending key order with no duplicates, and
the spec's concrete example over {key1..key4} returns exactly
[(key1,v1), (key2,v2), (key3,v3)]. -/
theorem range_exact (db : K4) (lo hi k v : String) (now : Int) :
    ((k, v) ∈ range_ db lo hi now ↔
      keyLe lo k = true ∧ keyLe k hi = true ∧ Get db k now = some v) ∧
    List.Pairwise (fun p q : String × String => keyLt p.1 q.1 = true)
      (range_ db lo hi now) ∧
    range_ (Put (Put (Put (Put emptyDB "key1" "v1" none 0) "key2" "v2" none 0)
        "key3" "v3" none 0) "key4" "v4" none 0) "key1" "key3" 0
      = [("key1", "v1"), ("key2", "v2"), ("key3", "v3")] :=
  ⟨mem_range_iff, range_pairwise db lo hi now, by decide⟩

end K4Spec

namespace K4Spec

/-- C2: commit is atomic — a failed commit (WAL append or lock failure)
leaves every read of every key unchanged, discarding the whole buffered
set, while a successful commit of [Put(a,va), Delete(b)] makes both effects
visible together. -/
theorem commit_atomicity (db : K4) (t : Transaction) (a b va : String)
    (now now' : Int) (hb : SeqBound db) (hab : a ≠ b) :
    (∀ k n, Get (CommitTransaction false t db now) k n = Get db k n) ∧
    CommitTransaction true t db now = t.ops.foldl (applyTxOp now) db ∧
    Get (CommitTransaction true ⟨[TxOp.tput a va none, TxOp.tdel b]⟩ db now)
        a now' = some va ∧
    Get (CommitTransaction true ⟨[TxOp.tput a va none, TxOp.tdel b]⟩ db now)
        b now' = none := by
  have hsp : SeqBound (Put db a va none now) := seqBound_put hb a va none now
  refine ⟨fun k n => rfl, rfl, ?_, ?_⟩
  · show Get (Delete (Put db a va none now) b) a now' = some va
    have h1 : latestIn (allEntries (Delete (Put db a va none now) b)) a
        = some (putEntry db a va none now) := by
      rw [latest_untouched_delete b (Ne.symm hab)]
      exact latestIn_after_put a va none now hb
    exact Get_of_latest_live h1 rfl rfl
  · show Get (Delete (Put db a va none now) b) b now' = none
    exact Get_of_latest_dead (latestIn_after_delete b hsp) rfl

/-- Witness for C2 on the empty database with the spec's example
transaction. -/
theorem commit_atomicity_witness :
    SeqBound emptyDB ∧ "a" ≠ "b" ∧
    ((∀ k n, Get (CommitTransaction false BeginTransaction emptyDB 0) k n
        = Get emptyDB k n) ∧
      CommitTransaction true BeginTransaction emptyDB 0
        = BeginTransaction.ops.foldl (applyTxOp 0) emptyDB ∧
      Get (CommitTransaction true ⟨[TxOp.tput "a" "1" none, TxOp.tdel "b"]⟩
          emptyDB 0) "a" 1 = some "1" ∧
      Get (CommitTransaction true ⟨[TxOp.tput "a" "1" none, TxOp.tdel "b"]⟩
          emptyDB 0) "b" 1 = none) :=
  ⟨by decide, by decide,
    commit_atomicity emptyDB BeginTransaction "a" "b" "1" 0 1 (by decide)
      (by decide)⟩

/-- C4: a get strictly before or at the expiry returns the value; once the
current time strictly exceeds the expiry the key reads as absent on every
read path — get, range and iterator — regardless of physical deletion
timing. -/
theorem ttl_read_paths (db : K4) (k v lo hi : String) (t now now' : Int)
    (hb : SeqBound db) :
    (now' ≤ now + t → Get (Put db k v (some t) now) k now' = some v) ∧
    (now + t < now' →
      Get (Put db k v (some t) now) k now' = none ∧
      (∀ v', (k, v') ∉ range_ (Put db k v (some t) now) lo hi now') ∧
      (∀ v', (k, v') ∉ iterSeq (Put db k v (some t) now) now')) := by
  have hl := latestIn_after_put k v (some t) now hb
  constructor
  · intro h
    apply Get_of_latest_live hl rfl
    simp only [putEntry, expiredAt, mkExpiry, Option.map_some']
    simpa using h
  · intro h
    have hg : Get (Put db k v (some t) now) k now' = none := by
      apply Get_of_latest_dead hl
      simp only [deadAt, putEntry, expiredAt, mkExpiry, Option.map_some']
      simpa using h
    refine ⟨hg, ?_, ?_⟩
    · intro v' hv'
      rcases mem_range_iff.mp hv' with ⟨_, _, hgv⟩
      rw [hg] at hgv
      exact Option.noConfusion hgv
    · intro v' hv'
      have hgv := mem_iterSeq_iff.mp hv'
      rw [hg] at hgv
      exact Option.noConfusion hgv

/-- Witness for C4 with a put of TTL 5 at time 0, read at times 3 and 9. -/
theorem ttl_read_paths_witness :
    SeqBound emptyDB ∧
    ((3 ≤ (0 : Int) + 5 → Get (Put emptyDB "k" "v" (some 5) 0) "k" 3 = some "v") ∧
      ((0 : Int) + 5 < 9 →
        Get (Put emptyDB "k" "v" (some 5) 0) "k" 9 = none ∧
        (∀ v', ("k", v') ∉ range_ (Put emptyDB "k" "v" (some 5) 0) "a" "z" 9) ∧
        (∀ v', ("k", v') ∉ iterSeq (Put emptyDB "k" "v" (some 5) 0) 9))) := by
  refine ⟨by decide, ?_, ?_⟩
  · exact (ttl_read_paths emptyDB "k" "v" "a" "z" 5 0 3 (by decide)).1
  · exact (ttl_read_paths emptyDB "k" "v" "a" "z" 5 0 9 (by decide)).2

theorem k4_put_eq_engine (db : K4) (k v : String) (ttl now : Int) :
    k4_put db k v ttl now = Put db k v (ttlArg ttl) now := by
  unfold k4_put ttlArg
  by_cases h : ttl = -1
  · rw [if_pos h, if_pos h]
  · rw [if_neg h, if_neg h]

theorem k4_get_eq_engine (db : K4) (k : String) (now : Int) :
    k4_get db k now = Get db k now := by
  unfold k4_get
  cases Get db k now <;> rfl

theorem not_expired_of_ttlArg {ttl now now' : Int}
    (h : ttl = -1 ∨ now' ≤ now + ttl) :
    ∀ t, ttlArg ttl = some t → now' ≤ now + t := by
  intro t ht
  unfold ttlArg at ht
  by_cases hm : ttl = -1
  · rw [if_pos hm] at ht
    exact Option.noConfusion ht
  · rw [if_neg hm] at ht
    injection ht with ht2
    subst ht2
    exact h.resolve_left hm

/-- Engine-level core of C1: a put's value persists through operations on
other keys until a later same-key put, a delete, or TTL expiry. -/
theorem get_after_put_core (db : K4) (k v : String) (ttl : Option Int)
    (now now' : Int) (ops : List DBOp) (hi : Inv db)
    (hops : ∀ op ∈ ops, touches k op = false) :
    ((∀ t, ttl = some t → now' ≤ now + t) →
      Get (applyOps (Put db k v ttl now) ops) k now' = some v) ∧
    (∀ t, ttl = some t → now + t < now' →
      Get (applyOps (Put db k v ttl now) ops) k now' = none) ∧
    Get (Delete (applyOps (Put db k v ttl now) ops) k) k now' = none ∧
    (∀ v2 ttl2 n2, (∀ t, ttl2 = some t → now' ≤ n2 + t) →
      Get (Put (applyOps (Put db k v ttl now) ops) k v2 ttl2 n2) k now'
        = some v2) := by
  have hip : Inv (Put db k v ttl now) := inv_put hi k v ttl now
  have hl : latestIn (allEntries (applyOps (Put db k v ttl now) ops)) k
      = some (putEntry db k v ttl now) := by
    rw [latest_untouched_applyOps hip hops]
    exact latestIn_after_put k v ttl now hi.2.1
  have hinv2 : Inv (applyOps (Put db k v ttl now) ops) := inv_applyOps hip ops
  refine ⟨?_, ?_, ?_, ?_⟩
  · intro hexp
    apply Get_of_latest_live hl rfl
    cases ttl with
    | none => rfl
    | some t =>
      simp only [putEntry, expiredAt, mkExpiry, Option.map_some']
      simpa using hexp t rfl
  · intro t ht hlt
    apply Get_of_latest_dead hl
    subst ht
    simp only [deadAt, putEntry, expiredAt, mkExpiry, Option.map_some']
    simpa using hlt
  · exact Get_of_latest_dead (latestIn_after_delete k hinv2.2.1) rfl
  · intro v2 ttl2 n2 hexp
    apply Get_of_latest_live (latestIn_after_put k v2 ttl2 n2 hinv2.2.1) rfl
    cases ttl2 with
    | none => rfl
    | some t =>
      simp only [putEntry, expiredAt, mkExpiry, Option.map_some']
      simpa using hexp t rfl

/-- C1: `k4_get` after `k4_put` returns the value, and keeps returning it
across later operations that do not write the key, until a later `k4_put`
for the same key, a `k4_delete` of that key, or the TTL expiry of the
entry, whichever comes first. -/
theorem get_after_put_until (db : K4) (k v : String) (ttl : Int)
    (now now' : Int) (ops : List DBOp) (hi : Inv db)
    (hops : ∀ op ∈ ops, touches k op = false) :
    ((ttl = -1 ∨ now' ≤ now + ttl) →
      k4_get (applyOps (k4_put db k v ttl now) ops) k now' = some v) ∧
    (ttl ≠ -1 → now + ttl < now' →
      k4_get (applyOps (k4_put db k v ttl now) ops) k now' = none) ∧
    k4_get (k4_delete (applyOps (k4_put db k v ttl now) ops) k) k now'
      = none ∧
    (∀ v2 ttl2 n2, (ttl2 = -1 ∨ now' ≤ n2 + ttl2) →
      k4_get (k4_put (applyOps (k4_put db k v ttl now) ops) k v2 ttl2 n2)
        k now' = some v2) := by
  have hcore := get_after_put_core db k v (ttlArg ttl) now now' ops hi hops
  refine ⟨?_, ?_, ?_, ?_⟩
  · intro h
    rw [k4_get_eq_engine, k4_put_eq_engine]
    exact hcore.1 (not_expired_of_ttlArg h)
  · intro hne hlt
    rw [k4_get_eq_engine, k4_put_eq_engine]
    apply hcore.2.1 ttl
    · unfold ttlArg
      rw [if_neg hne]
    · exact hlt
  · rw [k4_get_eq_engine, k4_put_eq_engine]
    exact hcore.2.2.1
  · intro v2 ttl2 n2 h
    rw [k4_get_eq_engine, k4_put_eq_engine, k4_put_eq_engine]
    exact hcore.2.2.2 v2 (ttlArg ttl2) n2 (not_expired_of_ttlArg h)

/-- Witness for C1: a put of key "a" with TTL 5 survives a put to "b" and a
flush. -/
theorem get_after_put_until_witness :
    Inv emptyDB ∧
    (∀ op ∈ [DBOp.opPut "b" "y" none 0, DBOp.opFlush],
      touches "a" op = false) ∧
    (((5 : Int) = -1 ∨ (3 : Int) ≤ 0 + 5) →
      k4_get (applyOps (k4_put emptyDB "a" "x" 5 0)
        [DBOp.opPut "b" "y" none 0, DBOp.opFlush]) "a" 3 = some "x") ∧
    ((5 : Int) ≠ -1 → (0 : Int) + 5 < 3 →
      k4_get (applyOps (k4_put emptyDB "a" "x" 5 0)
        [DBOp.opPut "b" "y" none 0, DBOp.opFlush]) "a" 3 = none) ∧
    k4_get (k4_delete (applyOps (k4_put emptyDB "a" "x" 5 0)
        [DBOp.opPut "b" "y" none 0, DBOp.opFlush]) "a") "a" 3 = none ∧
    (∀ v2 ttl2 n2, (ttl2 = -1 ∨ (3 : Int) ≤ n2 + ttl2) →
      k4_get (k4_put (applyOps (k4_put emptyDB "a" "x" 5 0)
        [DBOp.opPut "b" "y" none 0, DBOp.opFlush]) "a" v2 ttl2 n2) "a" 3
          = some v2) :=
  ⟨by decide, by decide,
    get_after_put_until emptyDB "a" "x" 5 0 3
      [DBOp.opPut "b" "y" none 0, DBOp.opFlush] (by decide) (by decide)⟩

/-- C7: in every reachable engine state, sequence numbers strictly increase
in write order across all completed writes (each write, including every
operation of a committed transaction, gets a number strictly above all
previously assigned ones), and for every key the entry with the highest
sequence number is the one the read paths treat as authoritative. -/
theorem sequence_invariant (db : K4) (h : Reachable db) :
    List.Pairwise (fun e1 e2 => e1.seqNo < e2.seqNo) (allEntries db) ∧
    SeqBound db ∧
    (∀ k e, latestIn (allEntries db) k = some e →
      ∀ x ∈ allEntries db, x.key = k → x.seqNo ≤ e.seqNo) := by
  obtain ⟨hw, hb, hp⟩ := reachable_inv h
  exact ⟨hp, hb, fun k e he x hx hk => latestIn_isMax _ k e he x hx hk⟩

/-- Witness for C7 at a state reached by a put followed by a committed
transaction. -/
theorem sequence_invariant_witness :
    List.Pairwise (fun e1 e2 => e1.seqNo < e2.seqNo)
      (allEntries (applyOp (applyOp emptyDB (DBOp.opPut "a" "x" none 0))
        (DBOp.opCommit true [TxOp.tput "b" "y" none, TxOp.tdel "a"] 1))) ∧
    SeqBound (applyOp (applyOp emptyDB (DBOp.opPut "a" "x" none 0))
      (DBOp.opCommit true [TxOp.tput "b" "y" none, TxOp.tdel "a"] 1)) ∧
    (∀ k e, latestIn
        (allEntries (applyOp (applyOp emptyDB (DBOp.opPut "a" "x" none 0))
          (DBOp.opCommit true [TxOp.tput "b" "y" none, TxOp.tdel "a"] 1))) k
          = some e →
      ∀ x ∈ allEntries (applyOp (applyOp emptyDB (DBOp.opPut "a" "x" none 0))
          (DBOp.opCommit true [TxOp.tput "b" "y" none, TxOp.tdel "a"] 1)),
        x.key = k → x.seqNo ≤ e.seqNo) :=
  sequence_invariant _ (Reachable.step (Reachable.step Reachable.empty _) _)

end K4Spec


namespace K4Spec

/-! Compaction only rewrites the per-key authoritative segment entries. -/

theorem latestIn_filterMap_none {g : String → Option Entry} {ks : List String}
    {k : String} (hg : ∀ k' e, g k' = some e → e.key = k') (hk : k ∉ ks) :
    latestIn (ks.filterMap g) k = none := by
  apply (latestIn_eq_none _ _).mpr
  intro e he
  rcases List.mem_filterMap.mp he with ⟨k', hk', hge⟩
  rw [hg k' e hge]
  intro hkk
  subst hkk
  exact hk hk'

theorem latestIn_filterMap_mem {g : String → Option Entry} {ks : List String}
    {k : String} (hg : ∀ k' e, g k' = some e → e.key = k') (hnd : ks.Nodup)
    (hk : k ∈ ks) : latestIn (ks.filterMap g) k = g k := by
  induction ks with
  | nil => cases hk
  | cons a ks ih =>
    rcases List.mem_cons.mp hk with rfl | hk2
    · cases hga : g k with
      | none =>
        rw [List.filterMap_cons_none hga]
        rw [latestIn_filterMap_none hg (List.nodup_cons.mp hnd).1]
      | some e =>
        rw [List.filterMap_cons_some hga, latestIn_cons]
        rw [latestIn_filterMap_none hg (List.nodup_cons.mp hnd).1]
        unfold latestStep
        rw [if_pos (hg _ _ hga)]
        rfl
    · have hne : a ≠ k := fun h => (List.nodup_cons.mp hnd).1 (h ▸ hk2)
      cases hga : g a with
      | none =>
        rw [List.filterMap_cons_none hga]
        exact ih (List.nodup_cons.mp hnd).2 hk2
      | some e =>
        rw [List.filterMap_cons_some hga, latestIn_cons]
        rw [ih (List.nodup_cons.mp hnd).2 hk2]
        unfold latestStep
        rw [if_neg (by rw [hg _ _ hga]; exact hne)]

theorem keepEntry_key {now : Int} {old : Entry → Bool} {x : Option Entry}
    {e : Entry} (h : keepEntry now old x = some e) : x = some e := by
  cases x with
  | none => exact Option.noConfusion h
  | some e2 =>
    simp only [keepEntry] at h
    by_cases hd : (deadAt now e2 && old e2) = true
    · rw [if_pos hd] at h
      exact Option.noConfusion h
    · rw [if_neg hd] at h
      exact h

theorem latestIn_compact (now : Int) (old : Entry → Bool) (segs : List Entry)
    (k : String) :
    latestIn (compactSegments now old segs) k
      = keepEntry now old (latestIn segs k) := by
  unfold compactSegments
  have hg : ∀ k' e, (fun k' => keepEntry now old (latestIn segs k')) k'
      = some e → e.key = k' := by
    intro k' e h
    simp only at h
    have h2 := keepEntry_key h
    exact (latestIn_mem h2).2
  by_cases hk : k ∈ (segs.map Entry.key).dedup
  · rw [latestIn_filterMap_mem hg (List.nodup_dedup _) hk]
  · rw [latestIn_filterMap_none hg hk]
    have hnone : latestIn segs k = none := by
      apply (latestIn_eq_none _ _).mpr
      intro e he hke
      exact hk (List.mem_dedup.mpr (List.mem_map.mpr ⟨e, he, hke⟩))
    rw [hnone]
    rfl

theorem expiredAt_mono {now now' : Int} {e : Entry} (h : now ≤ now')
    (hx : expiredAt now e = true) : expiredAt now' e = true := by
  cases he : e.expiresAt with
  | none => simp [expiredAt, he] at hx
  | some t =>
    simp only [expiredAt, he, decide_eq_true_eq] at hx ⊢
    omega

/-- C9: compaction preserves the observable state — for every key, get
returns the same result before and after a compaction run under any grace
predicate, and the compacted segment set contains no entry that was not
already present (only dead or superseded entries are removed). -/
theorem compaction_preserves (db : K4) (now now' : Int)
    (oldEnough : Entry → Bool)
    (hp : List.Pairwise (fun e1 e2 => e1.seqNo < e2.seqNo) (allEntries db))
    (hnow : now ≤ now') :
    (∀ k, Get (compactDB now oldEnough db) k now' = Get db k now') ∧
    (∀ e ∈ (compactDB now oldEnough db).segments, e ∈ db.segments) := by
  constructor
  · intro k
    unfold Get
    rw [show allEntries (compactDB now oldEnough db)
        = compactSegments now oldEnough db.segments ++ db.memtable from rfl]
    rw [show allEntries db = db.segments ++ db.memtable from rfl]
    rw [latestIn_append, latestIn_append, latestIn_compact]
    cases hls : latestIn db.segments k with
    | none => rfl
    | some e =>
      simp only [keepEntry]
      by_cases hd : (deadAt now e && oldEnough e) = true
      · rw [if_pos hd]
        have hdead : deadAt now e = true := by
          have h2 := hd
          simp only [Bool.and_eq_true] at h2
          exact h2.1
        cases hlm : latestIn db.memtable k with
        | none =>
          show (none : Option String) = readLatest now' (some e)
          have hre : readLatest now' (some e) = none := by
            simp only [readLatest]
            by_cases ht : e.tombstone = true
            · rw [if_pos ht]
            · have hx : expiredAt now e = true := by
                unfold deadAt at hdead
                simp only [Bool.or_eq_true] at hdead
                exact hdead.resolve_left ht
              rw [if_neg ht, if_pos (expiredAt_mono hnow hx)]
          rw [hre]
        | some m =>
          have hes : e.seqNo < m.seqNo := by
            have hme := (latestIn_mem hls).1
            have hmm := (latestIn_mem hlm).1
            exact (List.pairwise_append.mp hp).2.2 e hme m hmm
          have hcomb : combLatest (some e) (some m) = some m := by
            simp only [combLatest]
            rw [if_neg (by omega)]
          rw [hcomb]
          rfl
      · rw [if_neg hd]
  · intro e he
    unfold compactDB compactSegments at he
    simp only at he
    rcases List.mem_filterMap.mp he with ⟨k', hk', hge⟩
    exact (latestIn_mem (keepEntry_key hge)).1

/-- Witness for C9: a flushed segment holding a put shadowed by a tombstone
is compacted with no observable change. -/
theorem compaction_preserves_witness :
    List.Pairwise (fun e1 e2 => e1.seqNo < e2.seqNo)
      (allEntries (flushDB (Delete (Put emptyDB "a" "x" none 0) "a"))) ∧
    (1 : Int) ≤ 2 ∧
    ((∀ k, Get (compactDB 1 (fun _ => true)
          (flushDB (Delete (Put emptyDB "a" "x" none 0) "a"))) k 2
        = Get (flushDB (Delete (Put emptyDB "a" "x" none 0) "a")) k 2) ∧
      (∀ e ∈ (compactDB 1 (fun _ => true)
          (flushDB (Delete (Put emptyDB "a" "x" none 0) "a"))).segments,
        e ∈ (flushDB (Delete (Put emptyDB "a" "x" none 0) "a")).segments)) :=
  ⟨by decide, by decide,
    compaction_preserves (flushDB (Delete (Put emptyDB "a" "x" none 0) "a"))
      1 2 (fun _ => true) (by decide) (by decide)⟩

end K4Spec
